import Mathlib

/-!
Verification of the `binomtest` crate (`src/lib.rs`).

The numerical layer of the crate (the `statrs` binomial distribution) works
with `f64`; here real arithmetic is embedded exactly over `ℚ`, and the
distribution functions `pmf`, `cdf`, `sf` are given their documented
mathematical meaning (`pmf x` is the binomial point mass, `cdf x = P(X ≤ x)`,
`sf x = 1 - cdf x`).  A possibly-NaN `f64` argument is modelled as `Option ℚ`
(`none` standing for NaN) where the validation layer needs it; every IEEE
comparison against NaN is false, which `f64_le` reproduces.  Rust `u64`
values are modelled as `ℕ` (`u64::checked_sub(low, 1).unwrap_or(0)` is the
truncated subtraction `low - 1` on `ℕ`), and the `as u64` cast of the
nonnegative float `p * n` is `Int.toNat` of its floor.
-/

namespace BinomTest

/-- The alternative hypothesis enumeration from `src/lib.rs`. -/
inductive Alternative
  | TwoSided
  | Less
  | Greater

/-- Binomial point mass `C(n, x) * p^x * (1-p)^(n-x)`, the contract of
`statrs::distribution::Binomial::pmf`. -/
def pmf (p : ℚ) (n x : ℕ) : ℚ :=
  (n.choose x : ℚ) * p ^ x * (1 - p) ^ (n - x)

/-- Binomial cumulative distribution function `P(X ≤ x)`, the contract of
`statrs::distribution::Binomial::cdf`. -/
def cdf (p : ℚ) (n x : ℕ) : ℚ :=
  ∑ i ∈ Finset.range (x + 1), pmf p n i

/-- Binomial survival function `P(X > x) = 1 - cdf x`, the contract of
`statrs::distribution::Binomial::sf`. -/
def sf (p : ℚ) (n x : ℕ) : ℚ :=
  1 - cdf p n x

/-- The private `binary_search` of `src/lib.rs`, lines 101-124.  The
`total_cmp` three-way comparison is the exact order on `ℚ` (no NaN can reach
it: `pmf` of a valid distribution is never NaN, and a negated zero equals
zero on both sides of the comparison simultaneously). -/
def binary_search (f : ℕ → ℚ) (key : ℚ) (low high : ℕ) : ℕ :=
  if h : low < high then
    if f (low + (high - low) / 2) < key then
      binary_search f key (low + (high - low) / 2 + 1) high
    else if f (low + (high - low) / 2) = key then
      low + (high - low) / 2
    else if low + (high - low) / 2 = 0 then 0
    else binary_search f key low (low + (high - low) / 2 - 1)
  else if f low ≤ key then low
  else low - 1
termination_by high - low
decreasing_by
  · omega
  · omega

/-- Number of loop iterations performed by `binary_search` (the same
recursion instrumented with a counter; each executed iteration of the
`while low < high` loop counts once). -/
def binary_searchSteps (f : ℕ → ℚ) (key : ℚ) (low high : ℕ) : ℕ :=
  if h : low < high then
    if f (low + (high - low) / 2) < key then
      binary_searchSteps f key (low + (high - low) / 2 + 1) high + 1
    else if f (low + (high - low) / 2) = key then 1
    else if low + (high - low) / 2 = 0 then 1
    else binary_searchSteps f key low (low + (high - low) / 2 - 1) + 1
  else 0
termination_by high - low
decreasing_by
  · omega
  · omega

/-- `binomial_test` from `src/lib.rs` over exact rationals.  The `as u64`
casts of the nonnegative floats `p * n` and `(p * n).ceil()` are
`Int.toNat ∘ Int.floor` and `Int.toNat ∘ Int.ceil`; the three-way
`k.cmp(&mode)` match is spelled as the equivalent two-test if chain. -/
def binomial_test (k n : ℕ) (p : ℚ) (alt : Alternative) : Except String ℚ :=
  if n < 1 then .error "Number of trials n must be > 0"
  else if n < k then .error "Number of successes k must be <= n and > 0"
  else if ¬(0 ≤ p ∧ p ≤ 1) then .error "Probability p must be in [0, 1]"
  else
    match alt with
    | .Less => .ok (cdf p n k)
    | .Greater =>
        if k = 0 then .ok 1 else .ok (sf p n (k - 1))
    | .TwoSided =>
        if k = (⌊p * (n : ℚ)⌋).toNat then .ok 1
        else if k < (⌊p * (n : ℚ)⌋).toNat then
          .ok (cdf p n k +
            sf p n (binary_search (fun x => -pmf p n x) (-pmf p n k) (⌈p * (n : ℚ)⌉).toNat n))
        else
          .ok ((if binary_search (fun x => pmf p n x) (pmf p n k) 0 (⌊p * (n : ℚ)⌋).toNat = 0 ∧
                  pmf p n k <
                    pmf p n (binary_search (fun x => pmf p n x) (pmf p n k) 0 (⌊p * (n : ℚ)⌋).toNat)
                then 0
                else cdf p n (binary_search (fun x => pmf p n x) (pmf p n k) 0 (⌊p * (n : ℚ)⌋).toNat)) +
            sf p n (k - 1))

/-- IEEE `<=` on possibly-NaN doubles: any comparison against NaN (here
`none`) is false; on finite values it is the rational order. -/
def f64_le : Option ℚ → Option ℚ → Bool
  | some a, some b => decide (a ≤ b)
  | _, _ => false

/-- The range check `(0. ..=1.).contains(&p)` of `src/lib.rs` line 48,
on a possibly-NaN probability. -/
def f64_in_unit (p : Option ℚ) : Bool :=
  f64_le (some 0) p && f64_le p (some 1)

/-- Whether control reaches the `Binomial::new(p, n)` construction on
`src/lib.rs` line 52, i.e. whether all three validations pass. -/
def distConstructedF (k n : ℕ) (p : Option ℚ) : Bool :=
  !(n < 1 : Bool) && !(n < k : Bool) && f64_in_unit p

/-- `binomial_test` with its probability argument taken as a possibly-NaN
double.  The three validations are those of `src/lib.rs` lines 42-51 in
source order; once the range check has passed the argument is a genuine
rational and the computation is `binomial_test`. -/
def binomial_testF (k n : ℕ) (p : Option ℚ) (alt : Alternative) : Except String ℚ :=
  if n < 1 then .error "Number of trials n must be > 0"
  else if n < k then .error "Number of successes k must be <= n and > 0"
  else if !f64_in_unit p then .error "Probability p must be in [0, 1]"
  else binomial_test k n (p.getD 0) alt

/-! ### Unfolding lemmas for the search loop and the evaluator branches -/

theorem binary_search_base (f : ℕ → ℚ) (key : ℚ) (low high : ℕ) (h : ¬low < high) :
    binary_search f key low high = if f low ≤ key then low else low - 1 := by
  rw [binary_search, dif_neg h]

theorem binary_search_step_lt (f : ℕ → ℚ) (key : ℚ) (low high : ℕ) (h : low < high)
    (hv : f (low + (high - low) / 2) < key) :
    binary_search f key low high = binary_search f key (low + (high - low) / 2 + 1) high := by
  rw [binary_search, dif_pos h, if_pos hv]

theorem binary_search_step_eq (f : ℕ → ℚ) (key : ℚ) (low high : ℕ) (h : low < high)
    (hv : f (low + (high - low) / 2) = key) :
    binary_search f key low high = low + (high - low) / 2 := by
  rw [binary_search, dif_pos h, if_neg (by rw [hv]; exact lt_irrefl key), if_pos hv]

theorem binary_search_step_guard (f : ℕ → ℚ) (key : ℚ) (low high : ℕ) (h : low < high)
    (hv : key < f (low + (high - low) / 2)) (h0 : low + (high - low) / 2 = 0) :
    binary_search f key low high = 0 := by
  rw [binary_search, dif_pos h, if_neg (asymm hv), if_neg (ne_of_gt hv), if_pos h0]

theorem binary_search_step_gt (f : ℕ → ℚ) (key : ℚ) (low high : ℕ) (h : low < high)
    (hv : key < f (low + (high - low) / 2)) (h0 : low + (high - low) / 2 ≠ 0) :
    binary_search f key low high = binary_search f key low (low + (high - low) / 2 - 1) := by
  rw [binary_search, dif_pos h, if_neg (asymm hv), if_neg (ne_of_gt hv), if_neg h0]

theorem binomial_test_less (k n : ℕ) (p : ℚ) (hn : 1 ≤ n) (hk : k ≤ n)
    (hp0 : 0 ≤ p) (hp1 : p ≤ 1) :
    binomial_test k n p .Less = .ok (cdf p n k) := by
  unfold binomial_test
  rw [if_neg (by omega), if_neg (by omega), if_neg (not_not_intro ⟨hp0, hp1⟩)]

theorem binomial_test_greater (k n : ℕ) (p : ℚ) (hn : 1 ≤ n) (hk : k ≤ n)
    (hp0 : 0 ≤ p) (hp1 : p ≤ 1) :
    binomial_test k n p .Greater = .ok (if k = 0 then 1 else sf p n (k - 1)) := by
  unfold binomial_test
  rw [if_neg (by omega), if_neg (by omega), if_neg (not_not_intro ⟨hp0, hp1⟩)]
  simp only []
  split <;> rfl

theorem binomial_test_two_eq (k n : ℕ) (p : ℚ) (hn : 1 ≤ n) (hk : k ≤ n)
    (hp0 : 0 ≤ p) (hp1 : p ≤ 1) (hm : k = (⌊p * (n : ℚ)⌋).toNat) :
    binomial_test k n p .TwoSided = .ok 1 := by
  unfold binomial_test
  rw [if_neg (by omega), if_neg (by omega), if_neg (not_not_intro ⟨hp0, hp1⟩)]
  exact if_pos hm

theorem binomial_test_two_lt (k n : ℕ) (p : ℚ) (hn : 1 ≤ n) (hk : k ≤ n)
    (hp0 : 0 ≤ p) (hp1 : p ≤ 1) (hm : k < (⌊p * (n : ℚ)⌋).toNat) :
    binomial_test k n p .TwoSided =
      .ok (cdf p n k +
        sf p n (binary_search (fun x => -pmf p n x) (-pmf p n k) (⌈p * (n : ℚ)⌉).toNat n)) := by
  unfold binomial_test
  rw [if_neg (by omega), if_neg (by omega), if_neg (not_not_intro ⟨hp0, hp1⟩)]
  simp only []
  rw [if_neg (by omega), if_pos hm]

theorem binomial_test_two_gt (k n : ℕ) (p : ℚ) (hn : 1 ≤ n) (hk : k ≤ n)
    (hp0 : 0 ≤ p) (hp1 : p ≤ 1) (hm : (⌊p * (n : ℚ)⌋).toNat < k) :
    binomial_test k n p .TwoSided =
      .ok ((if binary_search (fun x => pmf p n x) (pmf p n k) 0 (⌊p * (n : ℚ)⌋).toNat = 0 ∧
              pmf p n k <
                pmf p n (binary_search (fun x => pmf p n x) (pmf p n k) 0 (⌊p * (n : ℚ)⌋).toNat)
            then 0
            else cdf p n (binary_search (fun x => pmf p n x) (pmf p n k) 0 (⌊p * (n : ℚ)⌋).toNat)) +
        sf p n (k - 1)) := by
  unfold binomial_test
  rw [if_neg (by omega), if_neg (by omega), if_neg (not_not_intro ⟨hp0, hp1⟩)]
  simp only []
  rw [if_neg (by omega), if_neg (by omega)]

/-! ### Facts about the binomial point mass -/

theorem pmf_nonneg (p : ℚ) (n x : ℕ) (hp0 : 0 ≤ p) (hp1 : p ≤ 1) : 0 ≤ pmf p n x := by
  unfold pmf
  have h1 : (0 : ℚ) ≤ (n.choose x : ℚ) := by positivity
  have h2 : (0 : ℚ) ≤ p ^ x := by positivity
  have h3 : (0 : ℚ) ≤ (1 - p) ^ (n - x) := by
    have : (0 : ℚ) ≤ 1 - p := by linarith
    positivity
  exact mul_nonneg (mul_nonneg h1 h2) h3

theorem pmf_lt_succ (p : ℚ) (n x : ℕ) (hp0 : 0 < p) (hp1 : p < 1)
    (hx : (x : ℚ) + 1 ≤ p * n) : pmf p n x < pmf p n (x + 1) := by
  have hxn : x < n := by
    have hpn : p * n ≤ (n : ℚ) := by
      have h0n : (0 : ℚ) ≤ (n : ℚ) := Nat.cast_nonneg n
      nlinarith
    have hxq : (x : ℚ) + 1 ≤ (n : ℚ) := le_trans hx hpn
    have hxq2 : (x : ℚ) < (n : ℚ) := by linarith
    exact_mod_cast hxq2
  have hsub : n - (x + 1) = n - x - 1 := by omega
  have hexp : n - x = (n - x - 1) + 1 := by omega
  have hch : ((x : ℚ) + 1) * (n.choose (x + 1) : ℚ) = ((n : ℚ) - (x : ℚ)) * (n.choose x : ℚ) := by
    have h := Nat.choose_succ_right_eq n x
    have h2 : ((n.choose (x + 1) * (x + 1) : ℕ) : ℚ) = ((n.choose x * (n - x) : ℕ) : ℚ) := by
      rw [h]
    push_cast [Nat.cast_sub hxn.le] at h2
    linarith
  have e1 : ((x : ℚ) + 1) * pmf p n (x + 1) =
      ((n.choose x : ℚ) * p ^ x * (1 - p) ^ (n - x - 1)) * (((n : ℚ) - (x : ℚ)) * p) := by
    unfold pmf
    rw [hsub]
    linear_combination (p ^ x * p * (1 - p) ^ (n - x - 1)) * hch
  have hpow2 : (1 - p) ^ (n - x) = (1 - p) ^ (n - x - 1) * (1 - p) := by
    rw [← pow_succ, ← hexp]
  have e2 : ((x : ℚ) + 1) * pmf p n x =
      ((n.choose x : ℚ) * p ^ x * (1 - p) ^ (n - x - 1)) * (((x : ℚ) + 1) * (1 - p)) := by
    unfold pmf
    rw [hpow2]
    ring
  have hApos : 0 < (n.choose x : ℚ) * p ^ x * (1 - p) ^ (n - x - 1) := by
    have hc : 0 < (n.choose x : ℚ) := by exact_mod_cast Nat.choose_pos hxn.le
    have hq : (0 : ℚ) < 1 - p := by linarith
    positivity
  have hcmp : ((x : ℚ) + 1) * (1 - p) < ((n : ℚ) - (x : ℚ)) * p := by nlinarith
  have hfin : ((x : ℚ) + 1) * pmf p n x < ((x : ℚ) + 1) * pmf p n (x + 1) := by
    rw [e1, e2]
    exact mul_lt_mul_of_pos_left hcmp hApos
  exact lt_of_mul_lt_mul_left hfin (by positivity)

theorem pmf_succ_lt (p : ℚ) (n x : ℕ) (hp0 : 0 < p) (hp1 : p < 1)
    (hx : p * n ≤ (x : ℚ)) (hxn : x < n) : pmf p n (x + 1) < pmf p n x := by
  have hsub : n - (x + 1) = n - x - 1 := by omega
  have hexp : n - x = (n - x - 1) + 1 := by omega
  have hch : ((x : ℚ) + 1) * (n.choose (x + 1) : ℚ) = ((n : ℚ) - (x : ℚ)) * (n.choose x : ℚ) := by
    have h := Nat.choose_succ_right_eq n x
    have h2 : ((n.choose (x + 1) * (x + 1) : ℕ) : ℚ) = ((n.choose x * (n - x) : ℕ) : ℚ) := by
      rw [h]
    push_cast [Nat.cast_sub hxn.le] at h2
    linarith
  have e1 : ((x : ℚ) + 1) * pmf p n (x + 1) =
      ((n.choose x : ℚ) * p ^ x * (1 - p) ^ (n - x - 1)) * (((n : ℚ) - (x : ℚ)) * p) := by
    unfold pmf
    rw [hsub]
    linear_combination (p ^ x * p * (1 - p) ^ (n - x - 1)) * hch
  have hpow2 : (1 - p) ^ (n - x) = (1 - p) ^ (n - x - 1) * (1 - p) := by
    rw [← pow_succ, ← hexp]
  have e2 : ((x : ℚ) + 1) * pmf p n x =
      ((n.choose x : ℚ) * p ^ x * (1 - p) ^ (n - x - 1)) * (((x : ℚ) + 1) * (1 - p)) := by
    unfold pmf
    rw [hpow2]
    ring
  have hApos : 0 < (n.choose x : ℚ) * p ^ x * (1 - p) ^ (n - x - 1) := by
    have hc : 0 < (n.choose x : ℚ) := by exact_mod_cast Nat.choose_pos hxn.le
    have hq : (0 : ℚ) < 1 - p := by linarith
    positivity
  have hcmp : ((n : ℚ) - (x : ℚ)) * p < ((x : ℚ) + 1) * (1 - p) := by nlinarith
  have hfin : ((x : ℚ) + 1) * pmf p n (x + 1) < ((x : ℚ) + 1) * pmf p n x := by
    rw [e1, e2]
    exact mul_lt_mul_of_pos_left hcmp hApos
  exact lt_of_mul_lt_mul_left hfin (by positivity)

theorem lt_of_chain (g : ℕ → ℚ) (a b : ℕ)
    (step : ∀ x, a ≤ x → x + 1 ≤ b → g x < g (x + 1)) (i : ℕ) :
    ∀ j, a ≤ i → i < j → j ≤ b → g i < g j := by
  intro j
  induction j with
  | zero => intro _ h _; omega
  | succ j ihj =>
    intro hai hij hjb
    rcases (by omega : i < j ∨ i = j) with h | h
    · exact lt_trans (ihj hai h (by omega)) (step j (by omega) hjb)
    · subst h
      exact step i hai hjb

theorem pmf_mono_low (p : ℚ) (n : ℕ) (hp0 : 0 < p) (hp1 : p < 1) (b : ℕ)
    (hb : (b : ℚ) ≤ p * n) :
    ∀ i j, i < j → j ≤ b → pmf p n i < pmf p n j := by
  intro i j hij hjb
  refine lt_of_chain (fun x => pmf p n x) 0 b (fun x _ hx1 => ?_) i j (Nat.zero_le i) hij hjb
  refine pmf_lt_succ p n x hp0 hp1 ?_
  have : ((x + 1 : ℕ) : ℚ) ≤ (b : ℚ) := by exact_mod_cast hx1
  push_cast at this
  linarith

theorem pmf_anti_high (p : ℚ) (n : ℕ) (hp0 : 0 < p) (hp1 : p < 1) (a : ℕ)
    (ha : p * n ≤ (a : ℚ)) :
    ∀ i j, a ≤ i → i < j → j ≤ n → pmf p n j < pmf p n i := by
  intro i j hai hij hjn
  have h := lt_of_chain (fun x => -pmf p n x) a n (fun x hax hx1 => ?_) i j hai hij hjn
  · exact lt_of_neg_lt_neg h
  · have hcast : p * n ≤ (x : ℚ) := by
      have : ((a : ℕ) : ℚ) ≤ (x : ℚ) := by exact_mod_cast hax
      linarith
    have := pmf_succ_lt p n x hp0 hp1 hcast (by omega)
    simpa using this

/-! ### Characterization of the search result on a strictly monotone range -/

theorem binary_search_spec_aux (f : ℕ → ℚ) (key : ℚ) :
    ∀ N low high, high - low ≤ N → low ≤ high →
      (∀ i j, low ≤ i → i < j → j ≤ high → f i < f j) →
      ((f low ≤ key →
          low ≤ binary_search f key low high ∧ binary_search f key low high ≤ high ∧
            f (binary_search f key low high) ≤ key ∧
            ∀ y, low ≤ y → y ≤ high → f y ≤ key → y ≤ binary_search f key low high) ∧
        (key < f low → binary_search f key low high = low - 1)) := by
  intro N
  induction N with
  | zero =>
    intro low high hN hlh _
    have hE : ¬low < high := by omega
    rw [binary_search_base f key low high hE]
    constructor
    · intro hle
      rw [if_pos hle]
      exact ⟨le_rfl, hlh, hle, fun y _ hy2 _ => by omega⟩
    · intro hgt
      rw [if_neg (not_le.mpr hgt)]
  | succ N ih =>
    intro low high hN hlh hmono
    by_cases hlt : low < high
    case neg =>
      rw [binary_search_base f key low high hlt]
      constructor
      · intro hle
        rw [if_pos hle]
        exact ⟨le_rfl, hlh, hle, fun y _ hy2 _ => by omega⟩
      · intro hgt
        rw [if_neg (not_le.mpr hgt)]
    case pos =>
      have hmlow : low ≤ low + (high - low) / 2 := by omega
      have hmhigh : low + (high - low) / 2 < high := by omega
      rcases lt_trichotomy (f (low + (high - low) / 2)) key with hv | hv | hv
      · -- f mid < key: the loop narrows to [mid+1, high]
        rw [binary_search_step_lt f key low high hlt hv]
        have ihr := ih (low + (high - low) / 2 + 1) high (by omega) (by omega)
          (fun i j h1 h2 h3 => hmono i j (by omega) h2 h3)
        constructor
        · intro _
          by_cases hnext : f (low + (high - low) / 2 + 1) ≤ key
          · obtain ⟨h1, h2, h3, h4⟩ := ihr.1 hnext
            refine ⟨by omega, h2, h3, fun y hy1 hy2 hy3 => ?_⟩
            by_cases hy : y ≤ low + (high - low) / 2
            · omega
            · exact h4 y (by omega) hy2 hy3
          · rw [ihr.2 (not_le.mp hnext)]
            rw [show low + (high - low) / 2 + 1 - 1 = low + (high - low) / 2 from by omega]
            refine ⟨hmlow, by omega, le_of_lt hv, fun y hy1 hy2 hy3 => ?_⟩
            by_contra hy
            push_neg at hy
            have hfle : f (low + (high - low) / 2 + 1) ≤ f y := by
              rcases (by omega : low + (high - low) / 2 + 1 = y ∨
                  low + (high - low) / 2 + 1 < y) with h | h
              · rw [h]
              · exact le_of_lt (hmono (low + (high - low) / 2 + 1) y (by omega) h hy2)
            exact absurd hy3 (not_le.mpr (lt_of_lt_of_le (not_le.mp hnext) hfle))
        · intro hgt
          exfalso
          rcases (by omega : low = low + (high - low) / 2 ∨ low < low + (high - low) / 2)
            with heq | hlt2
          · rw [← heq] at hv
            exact lt_asymm hgt hv
          · have := hmono low (low + (high - low) / 2) le_rfl hlt2 (le_of_lt hmhigh)
            exact lt_asymm hgt (lt_trans this hv)
      · -- f mid = key: exact hit, the loop returns mid at once
        rw [binary_search_step_eq f key low high hlt hv]
        constructor
        · intro _
          refine ⟨hmlow, le_of_lt hmhigh, le_of_eq hv, fun y hy1 hy2 hy3 => ?_⟩
          by_contra hy
          push_neg at hy
          have := hmono (low + (high - low) / 2) y hmlow hy hy2
          rw [hv] at this
          exact absurd hy3 (not_le.mpr this)
        · intro hgt
          exfalso
          rcases (by omega : low = low + (high - low) / 2 ∨ low < low + (high - low) / 2)
            with heq | hlt2
          · rw [← heq] at hv
            rw [hv] at hgt
            exact lt_irrefl key hgt
          · have := hmono low (low + (high - low) / 2) le_rfl hlt2 (le_of_lt hmhigh)
            rw [hv] at this
            exact lt_asymm hgt this
      · -- key < f mid: the loop narrows to [low, mid-1], with the mid = 0 guard
        by_cases h0 : low + (high - low) / 2 = 0
        · rw [binary_search_step_guard f key low high hlt hv h0]
          have hlow0 : low = 0 := by omega
          constructor
          · intro hlowle
            exfalso
            rw [show low + (high - low) / 2 = low from by omega] at hv
            exact absurd hlowle (not_le.mpr hv)
          · intro _
            omega
        · rw [binary_search_step_gt f key low high hlt hv h0]
          rcases (by omega : low = low + (high - low) / 2 ∨ low < low + (high - low) / 2)
            with heq | hlowmid
          · have hb : ¬low < low + (high - low) / 2 - 1 := by omega
            rw [binary_search_base f key low (low + (high - low) / 2 - 1) hb]
            constructor
            · intro hlowle
              exfalso
              rw [← heq] at hv
              exact absurd hlowle (not_le.mpr hv)
            · intro hgt
              rw [if_neg (not_le.mpr hgt)]
          · have ihr := ih low (low + (high - low) / 2 - 1) (by omega) (by omega)
              (fun i j h1 h2 h3 => hmono i j h1 h2 (by omega))
            constructor
            · intro hlowle
              obtain ⟨h1, h2, h3, h4⟩ := ihr.1 hlowle
              refine ⟨h1, by omega, h3, fun y hy1 hy2 hy3 => ?_⟩
              have hymid : y ≤ low + (high - low) / 2 - 1 := by
                by_contra hy
                push_neg at hy
                have hfle : f (low + (high - low) / 2) ≤ f y := by
                  rcases (by omega : low + (high - low) / 2 = y ∨
                      low + (high - low) / 2 < y) with h | h
                  · rw [h]
                  · exact le_of_lt (hmono (low + (high - low) / 2) y hmlow h hy2)
                exact absurd hy3 (not_le.mpr (lt_of_lt_of_le hv hfle))
              exact h4 y hy1 hymid hy3
            · exact ihr.2

theorem binary_search_spec (f : ℕ → ℚ) (key : ℚ) (low high : ℕ) (hlh : low ≤ high)
    (hmono : ∀ i j, low ≤ i → i < j → j ≤ high → f i < f j) :
    ((f low ≤ key →
        low ≤ binary_search f key low high ∧ binary_search f key low high ≤ high ∧
          f (binary_search f key low high) ≤ key ∧
          ∀ y, low ≤ y → y ≤ high → f y ≤ key → y ≤ binary_search f key low high) ∧
      (key < f low → binary_search f key low high = low - 1)) :=
  binary_search_spec_aux f key (high - low) low high le_rfl hlh hmono

/-! ### Floor and ceiling of the nonnegative anchor `p * n` -/

theorem floor_toNat_le (p : ℚ) (n : ℕ) (hp0 : 0 ≤ p) :
    (((⌊p * (n : ℚ)⌋).toNat : ℕ) : ℚ) ≤ p * n := by
  have h0 : (0 : ℚ) ≤ p * n := mul_nonneg hp0 (Nat.cast_nonneg n)
  have hf : (0 : ℤ) ≤ ⌊p * (n : ℚ)⌋ := Int.floor_nonneg.mpr h0
  have h1 : (((⌊p * (n : ℚ)⌋).toNat : ℕ) : ℚ) = ((⌊p * (n : ℚ)⌋ : ℤ) : ℚ) := by
    exact_mod_cast congrArg (fun z : ℤ => (z : ℚ)) (Int.toNat_of_nonneg hf)
  rw [h1]
  exact Int.floor_le _

theorem ceil_toNat_ge (p : ℚ) (n : ℕ) (hp0 : 0 ≤ p) :
    p * n ≤ (((⌈p * (n : ℚ)⌉).toNat : ℕ) : ℚ) := by
  have h0 : (0 : ℚ) ≤ p * n := mul_nonneg hp0 (Nat.cast_nonneg n)
  have hf : (0 : ℤ) ≤ ⌈p * (n : ℚ)⌉ := Int.ceil_nonneg h0
  have h1 : (((⌈p * (n : ℚ)⌉).toNat : ℕ) : ℚ) = ((⌈p * (n : ℚ)⌉ : ℤ) : ℚ) := by
    exact_mod_cast congrArg (fun z : ℤ => (z : ℚ)) (Int.toNat_of_nonneg hf)
  rw [h1]
  exact Int.le_ceil _

theorem ceil_toNat_le_n (p : ℚ) (n : ℕ) (hp1 : p ≤ 1) : (⌈p * (n : ℚ)⌉).toNat ≤ n := by
  have hc : ⌈p * (n : ℚ)⌉ ≤ (n : ℤ) := by
    rw [Int.ceil_le]
    have h0n : (0 : ℚ) ≤ (n : ℚ) := Nat.cast_nonneg n
    push_cast
    nlinarith
  exact Int.toNat_le.mpr hc

theorem floor_toNat_one (n : ℕ) : (⌊(1 : ℚ) * (n : ℚ)⌋).toNat = n := by
  rw [one_mul, Int.floor_natCast, Int.toNat_natCast]

theorem ceil_toNat_one (n : ℕ) : (⌈(1 : ℚ) * (n : ℚ)⌉).toNat = n := by
  rw [one_mul, Int.ceil_natCast, Int.toNat_natCast]

theorem floor_toNat_zero (n : ℕ) : (⌊(0 : ℚ) * (n : ℚ)⌋).toNat = 0 := by
  rw [zero_mul, Int.floor_zero, Int.toNat_zero]

/-! ### The mass function sums to one; tail sums -/

theorem pmf_sum (p : ℚ) (n : ℕ) : ∑ i ∈ Finset.range (n + 1), pmf p n i = 1 := by
  have h := add_pow p (1 - p) n
  rw [show p + (1 - p) = 1 from by ring, one_pow] at h
  rw [show ∑ i ∈ Finset.range (n + 1), pmf p n i
      = ∑ i ∈ Finset.range (n + 1), p ^ i * (1 - p) ^ (n - i) * (n.choose i : ℚ) from
    Finset.sum_congr rfl fun i _ => by unfold pmf; ring]
  exact h.symm

theorem cdf_of_ge (p : ℚ) (n x : ℕ) (hx : n ≤ x) : cdf p n x = 1 := by
  unfold cdf
  rw [← pmf_sum p n]
  refine (Finset.sum_subset (Finset.range_subset.mpr (by omega)) ?_).symm
  intro i hi hni
  have hin : n < i := by
    have := Finset.mem_range.not.mp hni
    omega
  unfold pmf
  rw [Nat.choose_eq_zero_of_lt hin]
  simp

theorem range_Ico_split (p : ℚ) (n k : ℕ) (hk : k ≤ n + 1) :
    ∑ i ∈ Finset.range k, pmf p n i + ∑ i ∈ Finset.Ico k (n + 1), pmf p n i
      = ∑ i ∈ Finset.range (n + 1), pmf p n i := by
  rw [Finset.range_eq_Ico]
  exact Finset.sum_Ico_consecutive _ (Nat.zero_le k) hk

theorem sf_eq_Icc (p : ℚ) (n k : ℕ) (h1 : 1 ≤ k) (hk : k ≤ n) :
    sf p n (k - 1) = ∑ i ∈ Finset.Icc k n, pmf p n i := by
  unfold sf cdf
  rw [show k - 1 + 1 = k from by omega]
  have hsplit := range_Ico_split p n k (by omega)
  rw [pmf_sum p n] at hsplit
  rw [← Nat.Ico_succ_right]
  linarith

theorem pmf_reflect (p : ℚ) (n i : ℕ) (hi : i ≤ n) : pmf (1 - p) n i = pmf p n (n - i) := by
  unfold pmf
  rw [Nat.choose_symm hi, show (1 : ℚ) - (1 - p) = p from by ring,
    show n - (n - i) = i from by omega]
  ring

theorem cdf_mirror (p : ℚ) (n k : ℕ) (hk : k < n) :
    cdf (1 - p) n (n - k - 1) = 1 - cdf p n k := by
  unfold cdf
  rw [show n - k - 1 + 1 = n - k from by omega]
  have h1 : ∑ i ∈ Finset.range (n - k), pmf (1 - p) n i
      = ∑ i ∈ Finset.range (n - k), pmf p n (n - i) :=
    Finset.sum_congr rfl fun i hi => pmf_reflect p n i (by
      have := Finset.mem_range.mp hi
      omega)
  have h2 : ∑ i ∈ Finset.range (n - k), pmf p n (n - i)
      = ∑ i ∈ Finset.range (n - k), pmf p n (k + 1 + i) := by
    rw [← Finset.sum_range_reflect (fun i => pmf p n (k + 1 + i)) (n - k)]
    refine Finset.sum_congr rfl fun i hi => ?_
    have hi2 := Finset.mem_range.mp hi
    congr 1
    omega
  have h3 : ∑ i ∈ Finset.range (n - k), pmf p n (k + 1 + i)
      = ∑ j ∈ Finset.Ico (k + 1) (n + 1), pmf p n j := by
    rw [Finset.sum_Ico_eq_sum_range, show n + 1 - (k + 1) = n - k from by omega]
  have hsplit := range_Ico_split p n (k + 1) (by omega)
  rw [pmf_sum p n] at hsplit
  rw [h1, h2, h3]
  linarith

/-! ### Step count bound for the search loop -/

theorem binary_searchSteps_base (f : ℕ → ℚ) (key : ℚ) (low high : ℕ) (h : ¬low < high) :
    binary_searchSteps f key low high = 0 := by
  rw [binary_searchSteps, dif_neg h]

theorem binary_searchSteps_le_aux (f : ℕ → ℚ) (key : ℚ) :
    ∀ N low high, high - low ≤ N →
      binary_searchSteps f key low high ≤ Nat.log2 (high - low) + 1 := by
  intro N
  induction N with
  | zero =>
    intro low high hN
    rw [binary_searchSteps_base f key low high (by omega)]
    omega
  | succ N ih =>
    intro low high hN
    by_cases hlt : low < high
    case neg =>
      rw [binary_searchSteps_base f key low high hlt]
      omega
    case pos =>
      rw [binary_searchSteps, dif_pos hlt]
      have hkey : ∀ lo hi, hi - lo ≤ (high - low) / 2 →
          binary_searchSteps f key lo hi + 1 ≤ Nat.log2 (high - low) + 1 := by
        intro lo hi hhalf
        by_cases h0 : hi - lo = 0
        · rw [binary_searchSteps_base f key lo hi (by omega)]
          omega
        · have h2 : 2 ≤ high - low := by omega
          have hb := ih lo hi (by omega)
          have hlog : Nat.log2 (hi - lo) ≤ Nat.log2 ((high - low) / 2) := by
            rw [Nat.log2_eq_log_two, Nat.log2_eq_log_two]
            exact Nat.log_mono_right hhalf
          have hdiv : Nat.log2 ((high - low) / 2) = Nat.log2 (high - low) - 1 := by
            rw [Nat.log2_eq_log_two, Nat.log2_eq_log_two]
            exact Nat.log_div_base 2 (high - low)
          have hpos : 1 ≤ Nat.log2 (high - low) := by
            rw [Nat.log2_eq_log_two]
            exact Nat.log_pos (by omega) h2
          omega
      split_ifs with h1 h2 h3
      · exact hkey (low + (high - low) / 2 + 1) high (by omega)
      · omega
      · omega
      · exact hkey low (low + (high - low) / 2 - 1) (by omega)

/-! ### The claims -/

/-- Claim C3: for every `f`, `key` and bounds, the search returns the probe
index `mid` immediately when `f mid` equals `key` under the total order; when
the loop has ended with `low = high` it returns `low` if `f low ≤ key` and
`low - 1` (saturating at 0, which is the truncated subtraction of `ℕ`)
otherwise; and when `f mid > key` with `mid = 0` an explicit guard returns
`0`, so the upper bound is never shrunk below zero. -/
theorem claim_C3 (f : ℕ → ℚ) (key : ℚ) (low high : ℕ) :
    (low < high → f (low + (high - low) / 2) = key →
        binary_search f key low high = low + (high - low) / 2) ∧
    (low = high →
        binary_search f key low high = if f low ≤ key then low else low - 1) ∧
    (low < high → low + (high - low) / 2 = 0 → key < f (low + (high - low) / 2) →
        binary_search f key low high = 0) :=
  ⟨fun h hv => binary_search_step_eq f key low high h hv,
    fun h => binary_search_base f key low high (by omega),
    fun h h0 hv => binary_search_step_guard f key low high h hv h0⟩

/-- Witness for C3: the three behaviors at concrete inputs, on the identity
function over the integer domain (exact hit, post-loop both ways via the
`low = high` rule, and the zero guard). -/
theorem claim_C3_witness :
    binary_search (fun x => (x : ℚ)) 2 0 4 = 2 ∧
    binary_search (fun x => (x : ℚ)) 7 3 3 = 3 ∧
    binary_search (fun x => (x : ℚ)) (-1) 0 1 = 0 := by
  refine ⟨?_, ?_, ?_⟩
  · have h := (claim_C3 (fun x => (x : ℚ)) 2 0 4).1 (by norm_num) (by norm_num)
    simpa using h
  · have h := (claim_C3 (fun x => (x : ℚ)) 7 3 3).2.1 rfl
    rw [h, if_pos (by norm_num)]
  · exact (claim_C3 (fun x => (x : ℚ)) (-1) 0 1).2.2 (by norm_num) (by norm_num) (by norm_num)

/-- Claim C4: for every valid input with `k` equal to `p * n` truncated to an
integer, the two-sided test returns exactly 1. -/
theorem claim_C4 (k n : ℕ) (p : ℚ) (hn : 1 ≤ n) (hk : k ≤ n)
    (hp0 : 0 ≤ p) (hp1 : p ≤ 1) (hm : k = (⌊p * (n : ℚ)⌋).toNat) :
    binomial_test k n p .TwoSided = .ok 1 :=
  binomial_test_two_eq k n p hn hk hp0 hp1 hm

/-- Witness for C4 at `k = 1, n = 2, p = 1/2` (where `p * n = 1`). -/
theorem claim_C4_witness :
    1 = (⌊(1 / 2 : ℚ) * ((2 : ℕ) : ℚ)⌋).toNat ∧
      binomial_test 1 2 (1 / 2) .TwoSided = .ok 1 := by
  have h1 : 1 = (⌊(1 / 2 : ℚ) * ((2 : ℕ) : ℚ)⌋).toNat := by
    rw [show (1 / 2 : ℚ) * ((2 : ℕ) : ℚ) = 1 from by norm_num, Int.floor_one]
    rfl
  exact ⟨h1, claim_C4 1 2 (1 / 2) (by norm_num) (by norm_num) (by norm_num) (by norm_num) h1⟩

/-- Claim C5: the validations are checked in the fixed source order
(`n ≥ 1`, then `k ≤ n`, then the probability range check), the first failing
check determines the returned error value, and on any failure the binomial
distribution is never constructed. -/
theorem claim_C5 (k n : ℕ) (p : Option ℚ) (alt : Alternative) :
    (n = 0 → binomial_testF k n p alt = .error "Number of trials n must be > 0") ∧
    (1 ≤ n → n < k →
        binomial_testF k n p alt = .error "Number of successes k must be <= n and > 0") ∧
    (1 ≤ n → k ≤ n → f64_in_unit p = false →
        binomial_testF k n p alt = .error "Probability p must be in [0, 1]") ∧
    ((n = 0 ∨ n < k ∨ f64_in_unit p = false) → distConstructedF k n p = false) := by
  refine ⟨?_, ?_, ?_, ?_⟩
  · intro h
    unfold binomial_testF
    rw [if_pos (by omega)]
  · intro h1 h2
    unfold binomial_testF
    rw [if_neg (by omega), if_pos h2]
  · intro h1 h2 h3
    unfold binomial_testF
    rw [if_neg (by omega), if_neg (by omega), if_pos (by rw [h3]; rfl)]
  · intro h
    unfold distConstructedF
    rcases h with h | h | h
    · subst h
      simp
    · simp [decide_eq_true h]
    · simp [h]

/-- Witness for C5: each validation failure at a concrete input, and the
fact that the failing inputs never reach the distribution constructor. -/
theorem claim_C5_witness :
    binomial_testF 1 0 (some (1 / 2)) .Less = .error "Number of trials n must be > 0" ∧
    binomial_testF 3 2 (some (1 / 2)) .Less =
        .error "Number of successes k must be <= n and > 0" ∧
    binomial_testF 1 2 (some 2) .Less = .error "Probability p must be in [0, 1]" ∧
    distConstructedF 3 2 (some (1 / 2)) = false := by
  refine ⟨(claim_C5 1 0 (some (1 / 2)) .Less).1 rfl,
    (claim_C5 3 2 (some (1 / 2)) .Less).2.1 (by norm_num) (by norm_num),
    (claim_C5 1 2 (some 2) .Less).2.2.1 (by norm_num) (by norm_num) ?_,
    (claim_C5 3 2 (some (1 / 2)) .Less).2.2.2 (Or.inr (Or.inl (by norm_num)))⟩
  unfold f64_in_unit f64_le
  simp only [Bool.and_eq_false_iff, decide_eq_false_iff_not]
  right
  norm_num

/-- Claim C7: for every valid input, the `Greater` alternative returns 1
when `k = 0` and `sf (k - 1)` otherwise, and `sf (k - 1)` is the upper tail
probability `P(X ≥ k)`, the sum of the masses of `k..n`. -/
theorem claim_C7 (k n : ℕ) (p : ℚ) (hn : 1 ≤ n) (hk : k ≤ n)
    (hp0 : 0 ≤ p) (hp1 : p ≤ 1) :
    binomial_test k n p .Greater = .ok (if k = 0 then 1 else sf p n (k - 1)) ∧
      (1 ≤ k → sf p n (k - 1) = ∑ i ∈ Finset.Icc k n, pmf p n i) :=
  ⟨binomial_test_greater k n p hn hk hp0 hp1, fun h1 => sf_eq_Icc p n k h1 hk⟩

/-- Witness for C7 at `k = 1, n = 2, p = 1/2`. -/
theorem claim_C7_witness :
    binomial_test 1 2 (1 / 2) .Greater = .ok (if 1 = 0 then 1 else sf (1 / 2) 2 (1 - 1)) ∧
      (1 ≤ 1 → sf (1 / 2) 2 (1 - 1) = ∑ i ∈ Finset.Icc 1 2, pmf (1 / 2) 2 i) :=
  claim_C7 1 2 (1 / 2) (by norm_num) (by norm_num) (by norm_num) (by norm_num)

/-- Claim C8: for every valid input, the `Less` alternative returns
`cdf k`, the probability of observing `k` or fewer successes (the sum of
the point masses of `0..k`). -/
theorem claim_C8 (k n : ℕ) (p : ℚ) (hn : 1 ≤ n) (hk : k ≤ n)
    (hp0 : 0 ≤ p) (hp1 : p ≤ 1) :
    binomial_test k n p .Less = .ok (cdf p n k) ∧
      cdf p n k = ∑ i ∈ Finset.range (k + 1), pmf p n i :=
  ⟨binomial_test_less k n p hn hk hp0 hp1, rfl⟩

/-- Witness for C8 at `k = 1, n = 2, p = 1/2`. -/
theorem claim_C8_witness :
    binomial_test 1 2 (1 / 2) .Less = .ok (cdf (1 / 2) 2 1) ∧
      cdf (1 / 2) 2 1 = ∑ i ∈ Finset.range (1 + 1), pmf (1 / 2) 2 i :=
  claim_C8 1 2 (1 / 2) (by norm_num) (by norm_num) (by norm_num) (by norm_num)

/-- Claim C9: the search always terminates, and the number of loop
iterations is logarithmic in the interval length: every iteration either
returns or at least halves `high - low`, so the instrumented step count is
at most `log2 (high - low) + 1`. -/
theorem claim_C9 (f : ℕ → ℚ) (key : ℚ) (low high : ℕ) :
    binary_searchSteps f key low high ≤ Nat.log2 (high - low) + 1 :=
  binary_searchSteps_le_aux f key (high - low) low high le_rfl

/-- Claim C10: a NaN probability (modelled as `none`) fails the IEEE range
check `(0. ..=1.).contains(&p)` because every comparison against NaN is
false, so the test reports the probability error and the distribution
constructor is never reached. -/
theorem claim_C10 (k n : ℕ) (alt : Alternative) (hn : 1 ≤ n) (hk : k ≤ n) :
    binomial_testF k n none alt = .error "Probability p must be in [0, 1]" ∧
      distConstructedF k n none = false := by
  constructor
  · unfold binomial_testF
    rw [if_neg (by omega), if_neg (by omega),
      if_pos (show (!f64_in_unit none) = true from rfl)]
  · simp [distConstructedF, f64_in_unit, f64_le]

/-- Witness for C10 at `k = 1, n = 2`, two-sided. -/
theorem claim_C10_witness :
    binomial_testF 1 2 none .TwoSided = .error "Probability p must be in [0, 1]" ∧
      distConstructedF 1 2 none = false :=
  claim_C10 1 2 .TwoSided (by norm_num) (by norm_num)

/-- Claim C2: for every valid input with `k` strictly above the truncated
anchor `floor(p*n)`, the two-sided result is `c + sf (k - 1)`, where `c = 0`
when the low-side search collapses to `0` with `pmf 0 > pmf k` (no index of
`[0, floor(p*n)]` qualifies), and otherwise `c = cdf x` for `x` the largest
index of `[0, floor(p*n)]` with `pmf x ≤ pmf k` (here `Nat.findGreatest`). -/
theorem claim_C2 (k n : ℕ) (p : ℚ) (hn : 1 ≤ n) (hk : k ≤ n)
    (hp0 : 0 ≤ p) (hp1 : p ≤ 1) (hm : (⌊p * (n : ℚ)⌋).toNat < k) :
    binomial_test k n p .TwoSided =
      .ok ((if pmf p n k < pmf p n 0 then 0
            else cdf p n (Nat.findGreatest (fun y => pmf p n y ≤ pmf p n k)
              (⌊p * (n : ℚ)⌋).toNat)) + sf p n (k - 1)) := by
  rw [binomial_test_two_gt k n p hn hk hp0 hp1 hm]
  have hp1' : p < 1 := by
    rcases lt_or_eq_of_le hp1 with h | h
    · exact h
    · exfalso
      rw [h, floor_toNat_one] at hm
      omega
  have hmono : ∀ i j, i < j → j ≤ (⌊p * (n : ℚ)⌋).toNat → pmf p n i < pmf p n j := by
    intro i j hij hjm
    rcases lt_or_eq_of_le hp0 with h0 | h0
    · exact pmf_mono_low p n h0 hp1' _ (floor_toNat_le p n hp0) i j hij hjm
    · exfalso
      rw [← h0, floor_toNat_zero] at hjm
      omega
  have hspec := binary_search_spec (fun x => pmf p n x) (pmf p n k) 0 (⌊p * (n : ℚ)⌋).toNat
    (Nat.zero_le _) (fun i j _ h2 h3 => hmono i j h2 h3)
  by_cases hcase : pmf p n 0 ≤ pmf p n k
  · obtain ⟨h1, h2, h3, h4⟩ := hspec.1 hcase
    have hr : binary_search (fun x => pmf p n x) (pmf p n k) 0 (⌊p * (n : ℚ)⌋).toNat
        = Nat.findGreatest (fun y => pmf p n y ≤ pmf p n k) (⌊p * (n : ℚ)⌋).toNat := by
      symm
      rw [Nat.findGreatest_eq_iff]
      exact ⟨h2, fun _ => h3, fun y hy1 hy2 hPy => absurd (h4 y (Nat.zero_le y) hy2 hPy) (by omega)⟩
    rw [if_neg (show ¬(binary_search (fun x => pmf p n x) (pmf p n k) 0
          (⌊p * (n : ℚ)⌋).toNat = 0 ∧
        pmf p n k < pmf p n (binary_search (fun x => pmf p n x) (pmf p n k) 0
          (⌊p * (n : ℚ)⌋).toNat)) from fun hctr => absurd hctr.2 (not_lt.mpr h3)),
      if_neg (not_lt.mpr hcase), hr]
  · push_neg at hcase
    have hr0 : binary_search (fun x => pmf p n x) (pmf p n k) 0 (⌊p * (n : ℚ)⌋).toNat = 0 := by
      have h := hspec.2 hcase
      simpa using h
    rw [if_pos ⟨hr0, by rw [hr0]; exact hcase⟩, if_pos hcase]

/-- Claim C1, amended: for every valid input with `k` strictly below the
truncated anchor, the two-sided result is `cdf k + sf x` where `x` is the
largest index of `[ceil(p*n), n]` whose mass is at least `pmf k` when
`pmf (ceil(p*n)) ≥ pmf k`, and `x = ceil(p*n) - 1` otherwise.  (The
original claim named the smallest index with `pmf x ≤ pmf k` instead; that
index is one past the boundary the code uses, see the counterexample.) -/
theorem claim_C1_amended (k n : ℕ) (p : ℚ) (hn : 1 ≤ n) (hk : k ≤ n)
    (hp0 : 0 ≤ p) (hp1 : p ≤ 1) (hm : k < (⌊p * (n : ℚ)⌋).toNat) :
    binomial_test k n p .TwoSided =
      .ok (cdf p n k + sf p n
        (if pmf p n k ≤ pmf p n ((⌈p * (n : ℚ)⌉).toNat)
         then Nat.findGreatest
           (fun y => (⌈p * (n : ℚ)⌉).toNat ≤ y ∧ pmf p n k ≤ pmf p n y) n
         else (⌈p * (n : ℚ)⌉).toNat - 1)) := by
  rw [binomial_test_two_lt k n p hn hk hp0 hp1 hm]
  have hp0' : 0 < p := by
    rcases lt_or_eq_of_le hp0 with h | h
    · exact h
    · exfalso
      rw [← h, floor_toNat_zero] at hm
      omega
  have hcq := ceil_toNat_ge p n hp0
  have hcn := ceil_toNat_le_n p n hp1
  have hmono : ∀ i j, (⌈p * (n : ℚ)⌉).toNat ≤ i → i < j → j ≤ n →
      (fun x => -pmf p n x) i < (fun x => -pmf p n x) j := by
    intro i j h1 h2 h3
    rcases lt_or_eq_of_le hp1 with hp1' | hp1'
    · have h := pmf_anti_high p n hp0' hp1' _ hcq i j h1 h2 h3
      simpa using h
    · exfalso
      rw [hp1', ceil_toNat_one] at h1
      omega
  have hspec := binary_search_spec (fun x => -pmf p n x) (-pmf p n k)
    (⌈p * (n : ℚ)⌉).toNat n hcn hmono
  by_cases hcase : pmf p n k ≤ pmf p n ((⌈p * (n : ℚ)⌉).toNat)
  · have hfc : (fun x => -pmf p n x) ((⌈p * (n : ℚ)⌉).toNat) ≤ -pmf p n k := by
      simpa using neg_le_neg hcase
    obtain ⟨h1, h2, h3, h4⟩ := hspec.1 hfc
    have hr : binary_search (fun x => -pmf p n x) (-pmf p n k) (⌈p * (n : ℚ)⌉).toNat n
        = Nat.findGreatest
          (fun y => (⌈p * (n : ℚ)⌉).toNat ≤ y ∧ pmf p n k ≤ pmf p n y) n := by
      symm
      rw [Nat.findGreatest_eq_iff]
      refine ⟨h2, fun _ => ⟨h1, by simpa using h3⟩, fun y hy1 hy2 hPy => ?_⟩
      have h := h4 y hPy.1 hy2 (by simpa using neg_le_neg hPy.2)
      omega
    rw [if_pos hcase, hr]
  · have hfc : -pmf p n k < (fun x => -pmf p n x) ((⌈p * (n : ℚ)⌉).toNat) := by
      push_neg at hcase
      simpa using neg_lt_neg hcase
    rw [if_neg hcase, hspec.2 hfc]

/-! ### Concrete mass values used by the counterexamples and witnesses -/

theorem pmf45_0 : pmf (3/5) 4 0 = 16/625 := by
  unfold pmf
  rw [show Nat.choose 4 0 = 1 from rfl]
  norm_num

theorem pmf45_1 : pmf (3/5) 4 1 = 96/625 := by
  unfold pmf
  rw [show Nat.choose 4 1 = 4 from rfl]
  norm_num

theorem pmf45_2 : pmf (3/5) 4 2 = 216/625 := by
  unfold pmf
  rw [show Nat.choose 4 2 = 6 from rfl]
  norm_num

theorem pmf45_3 : pmf (3/5) 4 3 = 216/625 := by
  unfold pmf
  rw [show Nat.choose 4 3 = 4 from rfl]
  norm_num

theorem pmf45_4 : pmf (3/5) 4 4 = 81/625 := by
  unfold pmf
  rw [show Nat.choose 4 4 = 1 from rfl]
  norm_num

theorem floor45 : (⌊(3/5 : ℚ) * ((4:ℕ) : ℚ)⌋).toNat = 2 := by
  rw [show (3/5 : ℚ) * ((4:ℕ) : ℚ) = 12/5 from by norm_num]
  rw [show ⌊(12/5 : ℚ)⌋ = 2 from by rw [Int.floor_eq_iff]; norm_num]
  rfl

theorem ceil45 : (⌈(3/5 : ℚ) * ((4:ℕ) : ℚ)⌉).toNat = 3 := by
  rw [show (3/5 : ℚ) * ((4:ℕ) : ℚ) = 12/5 from by norm_num]
  rw [show ⌈(12/5 : ℚ)⌉ = 3 from by rw [Int.ceil_eq_iff]; norm_num]
  rfl

theorem bs45 : binary_search (fun x => -pmf (3/5) 4 x) (-pmf (3/5) 4 1) 3 4 = 3 := by
  rw [binary_search_step_lt (fun x => -pmf (3/5) 4 x) (-pmf (3/5) 4 1) 3 4 (by norm_num)
    (show -pmf (3/5) 4 (3 + (4 - 3) / 2) < -pmf (3/5) 4 1 from by
      rw [show (3 + (4 - 3) / 2 : ℕ) = 3 from rfl, pmf45_3, pmf45_1]
      norm_num)]
  rw [show (3 + (4 - 3) / 2 + 1 : ℕ) = 4 from rfl]
  rw [binary_search_base (fun x => -pmf (3/5) 4 x) (-pmf (3/5) 4 1) 4 4 (by norm_num)]
  rw [if_neg (show ¬(-pmf (3/5) 4 4 ≤ -pmf (3/5) 4 1) from by
    rw [pmf45_4, pmf45_1]
    norm_num)]

theorem cdf45_1 : cdf (3/5) 4 1 = 112/625 := by
  unfold cdf
  rw [Finset.sum_range_succ, Finset.sum_range_one, pmf45_0, pmf45_1]
  norm_num

theorem sf45_3 : sf (3/5) 4 3 = 81/625 := by
  unfold sf cdf
  rw [Finset.sum_range_succ, Finset.sum_range_succ, Finset.sum_range_succ,
    Finset.sum_range_one, pmf45_0, pmf45_1, pmf45_2, pmf45_3]
  norm_num

theorem sf45_4 : sf (3/5) 4 4 = 0 := by
  unfold sf cdf
  rw [Finset.sum_range_succ, Finset.sum_range_succ, Finset.sum_range_succ,
    Finset.sum_range_succ, Finset.sum_range_one, pmf45_0, pmf45_1, pmf45_2, pmf45_3, pmf45_4]
  norm_num

theorem pmf14_0 : pmf (1/4) 1 0 = 3/4 := by
  unfold pmf
  rw [show Nat.choose 1 0 = 1 from rfl]
  norm_num

theorem pmf14_1 : pmf (1/4) 1 1 = 1/4 := by
  unfold pmf
  rw [show Nat.choose 1 1 = 1 from rfl]
  norm_num

theorem floor14 : (⌊(1/4 : ℚ) * ((1:ℕ) : ℚ)⌋).toNat = 0 := by
  rw [show (1/4 : ℚ) * ((1:ℕ) : ℚ) = 1/4 from by norm_num]
  rw [show ⌊(1/4 : ℚ)⌋ = 0 from by rw [Int.floor_eq_iff]; norm_num]
  rfl

/-- Counterexample to claim C1 as stated, at `k = 1, n = 4, p = 3/5`.  The
high-side range is `[ceil(p*n), n] = [3, 4]`; the smallest index of that
range whose mass does not exceed `pmf 1` is `4` (because `pmf 3 > pmf 1`
while `pmf 4 ≤ pmf 1`), so the claim predicts the result
`cdf 1 + sf 4 = 112/625`, but the code returns `193/625 = cdf 1 + sf 3`:
the code keeps the boundary index inside the counted tail. -/
theorem claim_C1_counterexample :
    binomial_test 1 4 (3/5) .TwoSided = .ok (193/625) ∧
    pmf (3/5) 4 1 < pmf (3/5) 4 3 ∧
    pmf (3/5) 4 4 ≤ pmf (3/5) 4 1 ∧
    cdf (3/5) 4 1 + sf (3/5) 4 4 = 112/625 ∧
    (193/625 : ℚ) ≠ 112/625 := by
  refine ⟨?_, ?_, ?_, ?_, by norm_num⟩
  · rw [binomial_test_two_lt 1 4 (3/5) (by norm_num) (by norm_num) (by norm_num) (by norm_num)
      (by rw [floor45]; norm_num)]
    rw [ceil45, bs45, cdf45_1, sf45_3]
    norm_num
  · rw [pmf45_1, pmf45_3]
    norm_num
  · rw [pmf45_4, pmf45_1]
    norm_num
  · rw [cdf45_1, sf45_4]
    norm_num

/-- Witness for the amended claim C1 at `k = 1, n = 4, p = 3/5`. -/
theorem claim_C1_amended_witness :
    1 < (⌊(3/5 : ℚ) * ((4:ℕ) : ℚ)⌋).toNat ∧
    binomial_test 1 4 (3/5) .TwoSided =
      .ok (cdf (3/5) 4 1 + sf (3/5) 4
        (if pmf (3/5) 4 1 ≤ pmf (3/5) 4 ((⌈(3/5 : ℚ) * ((4:ℕ) : ℚ)⌉).toNat)
         then Nat.findGreatest
           (fun y => (⌈(3/5 : ℚ) * ((4:ℕ) : ℚ)⌉).toNat ≤ y ∧ pmf (3/5) 4 1 ≤ pmf (3/5) 4 y) 4
         else (⌈(3/5 : ℚ) * ((4:ℕ) : ℚ)⌉).toNat - 1)) := by
  have hfl : 1 < (⌊(3/5 : ℚ) * ((4:ℕ) : ℚ)⌋).toNat := by
    rw [floor45]
    norm_num
  exact ⟨hfl,
    claim_C1_amended 1 4 (3/5) (by norm_num) (by norm_num) (by norm_num) (by norm_num) hfl⟩

/-- Witness for claim C2 at `k = 1, n = 1, p = 1/4` (the anchor is 0 and
`pmf 0 = 3/4 > 1/4 = pmf 1`, so the low-tail contribution collapses to 0). -/
theorem claim_C2_witness :
    (⌊(1/4 : ℚ) * ((1:ℕ) : ℚ)⌋).toNat < 1 ∧
    binomial_test 1 1 (1/4) .TwoSided =
      .ok ((if pmf (1/4) 1 1 < pmf (1/4) 1 0 then 0
            else cdf (1/4) 1 (Nat.findGreatest (fun y => pmf (1/4) 1 y ≤ pmf (1/4) 1 1)
              (⌊(1/4 : ℚ) * ((1:ℕ) : ℚ)⌋).toNat)) + sf (1/4) 1 (1 - 1)) := by
  have hfl : (⌊(1/4 : ℚ) * ((1:ℕ) : ℚ)⌋).toNat < 1 := by
    rw [floor14]
    norm_num
  exact ⟨hfl, claim_C2 1 1 (1/4) (by norm_num) (by norm_num) (by norm_num) (by norm_num) hfl⟩

/-- Counterexample to claim C6 as stated, at `k = 1, n = 1, p = 1/4`: the
test returns `1/4` there, while the relabeled input `(n - k, n, 1 - p) =
(0, 1, 3/4)` hits the anchor shortcut (`0 = floor(3/4)`) and returns `1`,
so the claimed two-sided symmetry fails. -/
theorem claim_C6_counterexample :
    binomial_test 1 1 (1/4) .TwoSided = .ok (1/4) ∧
    binomial_test (1 - 1) 1 (1 - 1/4) .TwoSided = .ok 1 ∧
    binomial_test 1 1 (1/4) .TwoSided ≠ binomial_test (1 - 1) 1 (1 - 1/4) .TwoSided := by
  have h1 : binomial_test 1 1 (1/4) .TwoSided = .ok (1/4) := by
    rw [binomial_test_two_gt 1 1 (1/4) (by norm_num) (by norm_num) (by norm_num) (by norm_num)
      (by rw [floor14]; norm_num)]
    rw [floor14]
    rw [show binary_search (fun x => pmf (1/4) 1 x) (pmf (1/4) 1 1) 0 0 = 0 from by
      rw [binary_search_base (fun x => pmf (1/4) 1 x) (pmf (1/4) 1 1) 0 0 (by norm_num)]
      rw [if_neg (show ¬(pmf (1/4) 1 0 ≤ pmf (1/4) 1 1) from by
        rw [pmf14_0, pmf14_1]
        norm_num)]]
    rw [if_pos ⟨rfl, show pmf (1/4) 1 1 < pmf (1/4) 1 0 from by
      rw [pmf14_1, pmf14_0]
      norm_num⟩]
    rw [show (1 - 1 : ℕ) = 0 from rfl]
    unfold sf cdf
    rw [Finset.sum_range_one, pmf14_0]
    norm_num
  have h2 : binomial_test (1 - 1) 1 (1 - 1/4) .TwoSided = .ok 1 := by
    rw [show (1 - 1 : ℕ) = 0 from rfl, show (1 - 1/4 : ℚ) = 3/4 from by norm_num]
    refine binomial_test_two_eq 0 1 (3/4) (by norm_num) (by norm_num) (by norm_num)
      (by norm_num) ?_
    rw [show (3/4 : ℚ) * ((1:ℕ) : ℚ) = 3/4 from by norm_num]
    rw [show ⌊(3/4 : ℚ)⌋ = 0 from by rw [Int.floor_eq_iff]; norm_num]
    rfl
  refine ⟨h1, h2, ?_⟩
  rw [h1, h2]
  simp only [ne_eq, Except.ok.injEq]
  norm_num

/-- Claim C6, amended: the success/failure relabeling symmetry does hold
between the two one-sided alternatives, `Less` at `(k, n, p)` against
`Greater` at `(n - k, n, 1 - p)`; the two-sided variant violates it (see the
counterexample). -/
theorem claim_C6_amended (k n : ℕ) (p : ℚ) (hn : 1 ≤ n) (hk : k ≤ n)
    (hp0 : 0 ≤ p) (hp1 : p ≤ 1) :
    binomial_test k n p .Less = binomial_test (n - k) n (1 - p) .Greater := by
  rw [binomial_test_less k n p hn hk hp0 hp1,
    binomial_test_greater (n - k) n (1 - p) hn (by omega) (by linarith) (by linarith)]
  by_cases hkn : n - k = 0
  · rw [if_pos hkn]
    have hkeq : k = n := by omega
    rw [hkeq, cdf_of_ge p n n le_rfl]
  · rw [if_neg hkn]
    have hklt : k < n := by omega
    unfold sf
    rw [cdf_mirror p n k hklt, sub_sub_cancel]

/-- Witness for the amended claim C6 at `k = 1, n = 2, p = 1/3`. -/
theorem claim_C6_amended_witness :
    binomial_test 1 2 (1/3) .Less = binomial_test (2 - 1) 2 (1 - 1/3) .Greater :=
  claim_C6_amended 1 2 (1/3) (by norm_num) (by norm_num) (by norm_num) (by norm_num)

end BinomTest
